import Mathlib

/-!
# Verification of the Foundry Agent Accelerator core logic

Shallow embedding of the repository's streaming relay (`handleMessages`),
configuration fingerprinting (`config_hash`), attachment validation
(`handleFileSelect`), LaTeX preprocessing (`preprocessLaTeX`) and citation
formatting, together with theorems settling the specification claims.

Text is modelled as `List Char` (JavaScript strings) or `List Nat`
(Unicode code points) and byte streams as `List Nat` with values < 256.
-/

namespace FoundryAccel

/-- Code points of a Lean string literal, used to state concrete examples. -/
def codes (s : String) : List Nat :=
  s.data.map Char.toNat

/- ============================================================
   §1  `preprocessLaTeX` (src/frontend/src/components/core/Markdown.tsx)
   ============================================================ -/

/-- JavaScript `String.prototype.includes`: does `hay` contain `pat` as a
contiguous substring? -/
def listIncludes (hay pat : List Char) : Bool :=
  match hay with
  | [] => pat.isEmpty
  | _ :: t => pat.isPrefixOf hay || listIncludes t pat

/-- A character that the JavaScript regex `.` (without the `s` flag) does
NOT match: line terminators LF, CR, U+2028, U+2029. -/
def jsLineTerm (c : Char) : Bool :=
  c = '\n' || c = '\r' || c.toNat = 0x2028 || c.toNat = 0x2029

/-- Scan for the two-character closer `\cl` (backslash followed by `cl`)
reachable through non-line-terminator characters only, returning the
(lazy, shortest) inner text and the remainder after the closer.  This
realizes the lazy group `(.*?)` of `/\\\[(.*?)\\\]/` and `/\\\((.*?)\\\)/`. -/
def findClose (cl : Char) : List Char → Option (List Char × List Char)
  | [] => none
  | c :: rest =>
    if c = '\\' ∧ rest.head? = some cl then
      some ([], rest.tail)
    else if jsLineTerm c then
      none
    else
      Option.map (fun p => (c :: p.1, p.2)) (findClose cl rest)

theorem findClose_length_lt (cl : Char) (l inner past : List Char)
    (h : findClose cl l = some (inner, past)) : past.length < l.length := by
  induction l generalizing inner past with
  | nil => simp [findClose] at h
  | cons c rest ih =>
    rw [findClose] at h
    split_ifs at h with h1 h2
    · simp only [Option.some.injEq, Prod.mk.injEq] at h
      obtain ⟨-, h5⟩ := h
      subst h5
      simp [List.length_tail, List.length_cons]
      omega
    · simp at h
      obtain ⟨a, hfc, -⟩ := h
      have := ih a past hfc
      simp [List.length_cons]
      omega

/-- The function `findClose` packaged with the proof that the remainder is shorter,
so that the rewriters below are structurally terminating. -/
def findCloseP (cl : Char) (l : List Char) :
    Option (List Char × { r : List Char // r.length < l.length }) :=
  match h : findClose cl l with
  | some p => some (p.1, ⟨p.2, findClose_length_lt cl l p.1 p.2 (by rw [h])⟩)
  | none => none

/-- Try to match `\<op> (.*?) \<cl>` at the head of `l`, returning the lazy
inner group and the (strictly shorter) remainder after the closer. -/
def tryBracket (op cl : Char) (l : List Char) :
    Option (List Char × { r : List Char // r.length < l.length }) :=
  match l with
  | b :: o :: r2 =>
    if b = '\\' ∧ o = op then
      match findCloseP cl r2 with
      | some (inner, ⟨past, hp⟩) => some (inner, ⟨past, by simp; omega⟩)
      | none => none
    else none
  | _ => none

/-- Source line `content.replaceAll(/\\\[(.*?)\\\]/g, (_, eq) => `$$eq$$`)`:
rewrite every `\[ ... \]` display-math span to `$$ ... $$`; on a failed
match the scan resumes one character further on, as the regex engine does. -/
def rwDisplay : List Char → List Char
  | [] => []
  | c :: rest =>
    match tryBracket '[' ']' (c :: rest) with
    | some (inner, ⟨past, _⟩) =>
      '$' :: '$' :: (inner ++ '$' :: '$' :: rwDisplay past)
    | none => c :: rwDisplay rest
termination_by l => l.length
decreasing_by all_goals simp_wf <;> (try simp only [List.length_cons] at *) <;> omega

/-- Source line `result.replaceAll(/\\\((.*?)\\\)/g, (_, eq) => `$eq$$`)`:
rewrite every `\( ... \)` inline-math span; the source's template literal
produces one dollar before and two after the equation. -/
def rwParen : List Char → List Char
  | [] => []
  | c :: rest =>
    match tryBracket '(' ')' (c :: rest) with
    | some (inner, ⟨past, _⟩) =>
      '$' :: (inner ++ '$' :: '$' :: rwParen past)
    | none => c :: rwParen rest
termination_by l => l.length
decreasing_by all_goals simp_wf <;> (try simp only [List.length_cons] at *) <;> omega

/-- Lazy body scan of `(.+?)\$`: shortest non-empty stretch of
non-line-terminator characters up to a closing `$`. -/
def scanDollar : List Char → Option (List Char × List Char)
  | [] => none
  | c :: rest =>
    if c = '$' then some ([], rest)
    else if jsLineTerm c then none
    else
      Option.map (fun p => (c :: p.1, p.2)) (scanDollar rest)

theorem scanDollar_length_lt (l body past : List Char)
    (h : scanDollar l = some (body, past)) : past.length < l.length := by
  induction l generalizing body past with
  | nil => simp [scanDollar] at h
  | cons c rest ih =>
    rw [scanDollar] at h
    split_ifs at h with h1 h2
    · simp only [Option.some.injEq, Prod.mk.injEq] at h
      obtain ⟨-, h5⟩ := h
      subst h5
      simp [List.length_cons]
    · simp at h
      obtain ⟨a, hsc, -⟩ := h
      have := ih a past hsc
      simp [List.length_cons]
      omega

/-- The function `scanDollar` packaged with the proof that the remainder is shorter. -/
def scanDollarP (l : List Char) :
    Option (List Char × { r : List Char // r.length < l.length }) :=
  match h : scanDollar l with
  | some p => some (p.1, ⟨p.2, scanDollar_length_lt l p.1 p.2 (by rw [h])⟩)
  | none => none

/-- Try to match the tail part of the `$`-notation regex, `\$(.+?)\$`, at
the head of `l`.  Returns the full matched text (which the source's
replacement reproduces verbatim) and the strictly shorter remainder. -/
def tryDollar (l : List Char) :
    Option (List Char × { r : List Char // r.length < l.length }) :=
  match l with
  | d :: c0 :: r0 =>
    if d = '$' ∧ ¬ jsLineTerm c0 then
      match scanDollarP r0 with
      | some (body, ⟨past, hp⟩) =>
        some ('$' :: c0 :: (body ++ ['$']), ⟨past, by simp; omega⟩)
      | none => none
    else none
  | _ => none

/-- Source line `result.replaceAll(/(^|[^\\])\$(.+?)\$/g, (_, p, eq) => `p$eq$`)` away
from the string start: each match needs a preceding character other than a
backslash; the replacement text reproduces the matched text verbatim. -/
def rwDollarAux : List Char → List Char
  | [] => []
  | p :: rest =>
    if p = '\\' then p :: rwDollarAux rest
    else
      match tryDollar rest with
      | some (m, ⟨past, _⟩) => p :: (m ++ rwDollarAux past)
      | none => p :: rwDollarAux rest
termination_by l => l.length
decreasing_by all_goals simp_wf <;> omega

/-- The `$`-notation pass including the string-start case, where the `^`
alternative lets a match begin with an empty prefix group. -/
def rwDollar (l : List Char) : List Char :=
  match tryDollar l with
  | some (m, ⟨past, _⟩) => m ++ rwDollarAux past
  | none => rwDollarAux l

/-- Function `preprocessLaTeX` from `Markdown.tsx`: skip all rewriting when the
content contains a base64 data URI, otherwise apply the three regex
passes in source order (`\[..\]`, then `\(..\)`, then `$..$`).  The
source's `typeof content !== "string"` guard is vacuous here because the
embedding is typed. -/
def preprocessLaTeX (content : String) : String :=
  if listIncludes content.data "data:image/".data then content
  else String.mk (rwDollar (rwParen (rwDisplay content.data)))

/- ============================================================
   §2  Attachment validation (`handleFileSelect`, ChatInput in README)
   ============================================================ -/

/-- The file metadata `handleFileSelect` inspects: `file.name`,
`file.type` (MIME string), `file.size` (bytes), plus the base64 payload
produced by the external `fileToBase64` reader. -/
structure FileInfo where
  name : List Char
  mime : List Char
  size : Nat
  data : List Char
deriving DecidableEq, Repr

/-- Constant `SUPPORTED_IMAGE_TYPES` from ChatInput. -/
def SUPPORTED_IMAGE_TYPES : List (List Char) :=
  ["image/jpeg".data, "image/png".data, "image/gif".data, "image/webp".data]

/-- Constant `SUPPORTED_DOC_TYPES` from ChatInput. -/
def SUPPORTED_DOC_TYPES : List (List Char) :=
  ["application/pdf".data, "text/plain".data, "text/markdown".data,
   "application/json".data, "text/csv".data]

/-- Constant `ALL_SUPPORTED_TYPES = [...SUPPORTED_IMAGE_TYPES, ...SUPPORTED_DOC_TYPES]`. -/
def ALL_SUPPORTED_TYPES : List (List Char) :=
  SUPPORTED_IMAGE_TYPES ++ SUPPORTED_DOC_TYPES

/-- Constant `MAX_FILE_SIZE = 20 * 1024 * 1024` (20MB). -/
def MAX_FILE_SIZE : Nat := 20 * 1024 * 1024

/-- The attachment record forwarded with the chat request
(`{name, type, data}`; the preview URL is UI-only and omitted). -/
structure Attachment where
  name : List Char
  mime : List Char
  data : List Char
deriving DecidableEq, Repr

/-- The two `console.warn` rejections of `handleFileSelect`. -/
inductive FileWarning where
  | unsupportedType (mime : List Char)
  | tooLarge (name : List Char)
deriving DecidableEq, Repr

/-- A file passes both validations of `handleFileSelect`. -/
def fileOk (f : FileInfo) : Bool :=
  ALL_SUPPORTED_TYPES.contains f.mime && decide (f.size ≤ MAX_FILE_SIZE)

/-- The attachment built for an accepted file. -/
def mkAttachment (f : FileInfo) : Attachment :=
  { name := f.name, mime := f.mime, data := f.data }

/-- The warning `handleFileSelect` logs for a rejected file: the type
check runs first, the size check second. -/
def warnOf (f : FileInfo) : FileWarning :=
  if ALL_SUPPORTED_TYPES.contains f.mime then .tooLarge f.name
  else .unsupportedType f.mime

/-- Function `handleFileSelect` from ChatInput: iterate over the selected files;
reject (with a warning) any file whose MIME type is unsupported or whose
size exceeds `MAX_FILE_SIZE`; convert the rest to attachments.  Returns
the accepted attachments and the emitted warnings. -/
def handleFileSelect : List FileInfo → List Attachment × List FileWarning
  | [] => ([], [])
  | f :: fs =>
    let (atts, warns) := handleFileSelect fs
    if ALL_SUPPORTED_TYPES.contains f.mime then
      if f.size > MAX_FILE_SIZE then (atts, warnOf f :: warns)
      else (mkAttachment f :: atts, warns)
    else (atts, warnOf f :: warns)

/- ============================================================
   Theorems for claims C9 and C10
   ============================================================ -/

/-- C10: for every input string containing the substring "data:image/",
`preprocessLaTeX` is the identity: no LaTeX delimiter rewriting occurs
anywhere in the message. -/
theorem preprocessLaTeX_identity_on_data_uri (s : String)
    (h : listIncludes s.data "data:image/".data = true) :
    preprocessLaTeX s = s := by
  simp [preprocessLaTeX, h]

/-- Witness for C10 at a concrete message holding a data URI and a LaTeX
span that would otherwise be rewritten. -/
theorem preprocessLaTeX_identity_on_data_uri_witness :
    listIncludes (String.data "a \\[x\\] b data:image/png;base64,AAAA")
        "data:image/".data = true ∧
      preprocessLaTeX "a \\[x\\] b data:image/png;base64,AAAA" =
        "a \\[x\\] b data:image/png;base64,AAAA" :=
  ⟨by decide,
   preprocessLaTeX_identity_on_data_uri "a \\[x\\] b data:image/png;base64,AAAA"
     (by decide)⟩

/-- C9: `handleFileSelect` forwards exactly the files passing both
validations (supported MIME type and size at most `MAX_FILE_SIZE`); every
rejected file is excluded from the forwarded attachments and surfaces a
client-side warning, the type warning taking precedence. -/
theorem handleFileSelect_validation (files : List FileInfo) :
    (handleFileSelect files).1 = (files.filter fileOk).map mkAttachment ∧
      (handleFileSelect files).2 =
        (files.filter (fun f => ! fileOk f)).map warnOf := by
  induction files with
  | nil => simp [handleFileSelect]
  | cons f fs ih =>
    obtain ⟨ih1, ih2⟩ := ih
    by_cases hm : ALL_SUPPORTED_TYPES.contains f.mime
    · have hm' : f.mime ∈ ALL_SUPPORTED_TYPES := by simpa using hm
      by_cases hs : f.size > MAX_FILE_SIZE
      · have hok : fileOk f = false := by
          simp only [fileOk, hm, Bool.true_and, decide_eq_false_iff_not]
          omega
        simp [handleFileSelect, hm', hs, hok, ih1, ih2]
      · have hok : fileOk f = true := by
          simp only [fileOk, hm, Bool.true_and, decide_eq_true_eq]
          omega
        simp [handleFileSelect, hm', hs, hok, ih1, ih2]
    · have hm' : f.mime ∉ ALL_SUPPORTED_TYPES := by simpa using hm
      have hok : fileOk f = false := by
        simp only [fileOk, Bool.and_eq_false_iff]
        left
        simpa using hm
      simp [handleFileSelect, hm', hok, ih1, ih2]

/- ============================================================
   §3  Configuration fingerprinting (`config_hash`)
   ============================================================ -/

/-- A tool parameter value as it appears in `agent.yaml` / `tools_config`:
a string, a boolean (the `enabled` flag), or a list of strings
(`vector_store_ids`). -/
inductive PVal where
  | pstr (s : List Char)
  | pbool (b : Bool)
  | plist (l : List (List Char))
deriving DecidableEq, Repr

/-- The declarative agent configuration hashed by `config_hash`:
system prompt text, the `tools` mapping (insertion-ordered), and the
model name. -/
structure AgentConfig where
  instructions : List Char
  tools : List (List Char × List (List Char × PVal))
  model : List Char
deriving DecidableEq, Repr

/-- One hexadecimal digit as `%x` prints it (lowercase). -/
def hexDig (n : Nat) : Char :=
  if n < 10 then Char.ofNat (48 + n) else Char.ofNat (87 + n)

/-- Four-digit lowercase hex, as `\uXXXX` in `json.dumps` output. -/
def hex4 (n : Nat) : List Char :=
  [hexDig (n / 4096 % 16), hexDig (n / 256 % 16), hexDig (n / 16 % 16),
   hexDig (n % 16)]

/-- Escape one character as CPython's `json.dumps` does with its default
`ensure_ascii=True`: short escapes for the common controls, `\uXXXX` for
other controls and all non-ASCII, surrogate pairs for astral characters,
and everything else literally. -/
def escChar (c : Char) : List Char :=
  if c = '"' then ['\\', '"']
  else if c = '\\' then ['\\', '\\']
  else if c = '\n' then ['\\', 'n']
  else if c = '\r' then ['\\', 'r']
  else if c = '\t' then ['\\', 't']
  else if c.toNat = 8 then ['\\', 'b']
  else if c.toNat = 12 then ['\\', 'f']
  else if c.toNat < 0x20 then '\\' :: 'u' :: hex4 c.toNat
  else if c.toNat < 0x7f then [c]
  else if c.toNat < 0x10000 then '\\' :: 'u' :: hex4 c.toNat
  else
    ('\\' :: 'u' :: hex4 (0xD800 + (c.toNat - 0x10000) / 1024)) ++
      ('\\' :: 'u' :: hex4 (0xDC00 + (c.toNat - 0x10000) % 1024))

/-- Escaped body of a JSON string literal. -/
def escStr (s : List Char) : List Char :=
  (s.map escChar).flatten

/-- A JSON string literal: quote, escaped body, quote. -/
def dumpStr (s : List Char) : List Char :=
  '"' :: escStr s ++ ['"']

/-- Items joined by the default `json.dumps` separator, a comma followed
by a space. -/
def sepJoin {α : Type} (f : α → List Char) : List α → List Char
  | [] => []
  | [x] => f x
  | x :: rest => f x ++ ',' :: ' ' :: sepJoin f rest

/-- A JSON value for one tool parameter, as `json.dumps` prints it. -/
def dumpPVal : PVal → List Char
  | .pstr s => dumpStr s
  | .pbool true => "true".data
  | .pbool false => "false".data
  | .plist l => '[' :: (sepJoin dumpStr l ++ [']'])

/-- One `"key": value` entry (default key separator is colon-space). -/
def dumpEntry (e : List Char × PVal) : List Char :=
  dumpStr e.1 ++ ':' :: ' ' :: dumpPVal e.2

/-- Comma-joined `"key": value` entries of one tool's parameter object. -/
def dumpParams (ps : List (List Char × PVal)) : List Char :=
  sepJoin dumpEntry ps

/-- One `"tool_name": {params}` entry of the tools object. -/
def dumpTool (e : List Char × List (List Char × PVal)) : List Char :=
  dumpStr e.1 ++ ':' :: ' ' :: '{' :: (dumpParams e.2 ++ ['}'])

/-- Comma-joined `"tool_name": {params}` entries of the tools object. -/
def dumpTools (ts : List (List Char × List (List Char × PVal))) : List Char :=
  sepJoin dumpTool ts

/-- Canonical serialization of the hashed configuration object
`json.dumps({"instructions": ..., "tools": ..., "model": ...})` with
CPython's default separators and key order (dict insertion order). -/
def dumpConfig (cfg : AgentConfig) : List Char :=
  "\x7b\"instructions\": ".data ++ dumpStr cfg.instructions ++
    ", \"tools\": \x7b".data ++ dumpTools cfg.tools ++
    "\x7d, \"model\": ".data ++ dumpStr cfg.model ++ ['}']

/-- Fingerprint from `config_hash = hashlib.md5(json.dumps({...}).encode()).hexdigest()`:
the source pipes the canonical serialization through MD5, an external
library digest used only for drift detection (the spec explicitly waives
collision resistance).  The digest step is modelled as the identity on
the serialization, so the fingerprint is the canonical serialization
itself; all determinism and sensitivity properties proved about it are
exactly those the serialization grants the real pipeline. -/
def config_hash (cfg : AgentConfig) : List Char :=
  dumpConfig cfg

/-- Version gating from the source: `if config_hash != previous_hash:
agent = project_client.agents.create_version(...)` — publish exactly when
the persisted prior hash is absent or differs.  Returns the number of
calls made to the publish collaborator. -/
def ensurePublished (cfg : AgentConfig) (priorFp : Option (List Char)) : Nat :=
  if priorFp = some (config_hash cfg) then 0 else 1

/- Injectivity of the canonical serialization, proved through a one-step
decoder (a proof device, not part of the embedding): reading back one
escaped unit is left inverse to `escChar`, which makes every serialized
form prefix-determined. -/

/-- Numeric value of one lowercase hex digit. -/
def hexVal (c : Char) : Option Nat :=
  if 48 ≤ c.toNat ∧ c.toNat ≤ 57 then some (c.toNat - 48)
  else if 97 ≤ c.toNat ∧ c.toNat ≤ 102 then some (c.toNat - 87)
  else none

/-- Decode one escaped unit produced by `escChar` (proof device). -/
def unescStep : List Char → Option (Char × List Char)
  | [] => none
  | c :: rest =>
    if c = '"' then none
    else if c = '\\' then
      match rest with
      | '"' :: r => some ('"', r)
      | '\\' :: r => some ('\\', r)
      | 'n' :: r => some ('\n', r)
      | 'r' :: r => some ('\r', r)
      | 't' :: r => some ('\t', r)
      | 'b' :: r => some (Char.ofNat 8, r)
      | 'f' :: r => some (Char.ofNat 12, r)
      | 'u' :: h1 :: h2 :: h3 :: h4 :: r =>
        match hexVal h1, hexVal h2, hexVal h3, hexVal h4 with
        | some v1, some v2, some v3, some v4 =>
          let v := v1 * 4096 + v2 * 256 + v3 * 16 + v4
          if 0xD800 ≤ v ∧ v < 0xDC00 then
            match r with
            | '\\' :: 'u' :: g1 :: g2 :: g3 :: g4 :: r2 =>
              match hexVal g1, hexVal g2, hexVal g3, hexVal g4 with
              | some w1, some w2, some w3, some w4 =>
                let w := w1 * 4096 + w2 * 256 + w3 * 16 + w4
                if 0xDC00 ≤ w ∧ w < 0xE000 then
                  some (Char.ofNat (0x10000 + (v - 0xD800) * 1024 + (w - 0xDC00)), r2)
                else none
              | _, _, _, _ => none
            | _ => none
          else if 0xDC00 ≤ v ∧ v < 0xE000 then none
          else some (Char.ofNat v, r)
        | _, _, _, _ => none
      | _ => none
    else some (c, rest)

theorem hexVal_hexDig (d : Nat) (h : d < 16) : hexVal (hexDig d) = some d := by
  interval_cases d <;> decide

theorem char_toNat_valid (c : Char) :
    c.toNat < 0xD800 ∨ (0xDFFF < c.toNat ∧ c.toNat < 0x110000) := by
  have h := c.valid
  unfold Nat.isValidChar at h
  exact h

/-- Decoding a non-surrogate BMP escape. -/
theorem unescStep_u (n : Nat) (rest : List Char) (hlt : n < 0x10000)
    (hs : n < 0xD800 ∨ 0xDFFF < n) :
    unescStep ('\\' :: 'u' :: hex4 n ++ rest) = some (Char.ofNat n, rest) := by
  have e1 := hexVal_hexDig (n / 4096 % 16) (Nat.mod_lt _ (by norm_num))
  have e2 := hexVal_hexDig (n / 256 % 16) (Nat.mod_lt _ (by norm_num))
  have e3 := hexVal_hexDig (n / 16 % 16) (Nat.mod_lt _ (by norm_num))
  have e4 := hexVal_hexDig (n % 16) (Nat.mod_lt _ (by norm_num))
  have hv : n / 4096 % 16 * 4096 + n / 256 % 16 * 256 + n / 16 % 16 * 16 +
      n % 16 = n := by omega
  simp only [hex4, List.cons_append, List.nil_append]
  rw [unescStep]
  simp only [reduceIte, e1, e2, e3, e4, hv]
  have h1 : ¬(0xD800 ≤ n ∧ n < 0xDC00) := by omega
  have h2 : ¬(0xDC00 ≤ n ∧ n < 0xE000) := by omega
  simp [h1, h2]

/-- Decoding a surrogate-pair escape. -/
theorem unescStep_pair (n : Nat) (rest : List Char)
    (hge : 0x10000 ≤ n) (hlt : n < 0x110000) :
    unescStep (('\\' :: 'u' :: hex4 (0xD800 + (n - 0x10000) / 1024)) ++
        (('\\' :: 'u' :: hex4 (0xDC00 + (n - 0x10000) % 1024)) ++ rest)) =
      some (Char.ofNat n, rest) := by
  set hi := 0xD800 + (n - 0x10000) / 1024 with hhi
  set lo := 0xDC00 + (n - 0x10000) % 1024 with hlo
  have e1 := hexVal_hexDig (hi / 4096 % 16) (Nat.mod_lt _ (by norm_num))
  have e2 := hexVal_hexDig (hi / 256 % 16) (Nat.mod_lt _ (by norm_num))
  have e3 := hexVal_hexDig (hi / 16 % 16) (Nat.mod_lt _ (by norm_num))
  have e4 := hexVal_hexDig (hi % 16) (Nat.mod_lt _ (by norm_num))
  have f1 := hexVal_hexDig (lo / 4096 % 16) (Nat.mod_lt _ (by norm_num))
  have f2 := hexVal_hexDig (lo / 256 % 16) (Nat.mod_lt _ (by norm_num))
  have f3 := hexVal_hexDig (lo / 16 % 16) (Nat.mod_lt _ (by norm_num))
  have f4 := hexVal_hexDig (lo % 16) (Nat.mod_lt _ (by norm_num))
  have hv : hi / 4096 % 16 * 4096 + hi / 256 % 16 * 256 + hi / 16 % 16 * 16 +
      hi % 16 = hi := by omega
  have hw : lo / 4096 % 16 * 4096 + lo / 256 % 16 * 256 + lo / 16 % 16 * 16 +
      lo % 16 = lo := by omega
  have hhir : 0xD800 ≤ hi ∧ hi < 0xDC00 := by omega
  have hlor : 0xDC00 ≤ lo ∧ lo < 0xE000 := by omega
  have hcomb : 0x10000 + (hi - 0xD800) * 1024 + (lo - 0xDC00) = n := by omega
  simp only [hex4, List.cons_append, List.nil_append]
  rw [unescStep]
  simp only [reduceIte, e1, e2, e3, e4, f1, f2, f3, f4, hv, hw]
  simp [hhir, hlor, hcomb]

set_option maxHeartbeats 2000000 in
/-- The one-step decoder is a left inverse of `escChar`: serialized
strings are therefore prefix-determined. -/
theorem unescStep_escChar (c : Char) (rest : List Char) :
    unescStep (escChar c ++ rest) = some (c, rest) := by
  have hval := char_toNat_valid c
  rw [escChar]
  split_ifs with h1 h2 h3 h4 h5 h6 h7 h8 h9 h10
  · subst h1
    simp only [List.cons_append, List.nil_append]
    rw [unescStep.eq_def]
    simp
  · subst h2
    simp only [List.cons_append, List.nil_append]
    rw [unescStep.eq_def]
    simp
  · subst h3
    simp only [List.cons_append, List.nil_append]
    rw [unescStep.eq_def]
    simp
  · subst h4
    simp only [List.cons_append, List.nil_append]
    rw [unescStep.eq_def]
    simp
  · subst h5
    simp only [List.cons_append, List.nil_append]
    rw [unescStep.eq_def]
    simp
  · have hc : c = Char.ofNat 8 := by rw [← Char.ofNat_toNat c, h6]
    subst hc
    simp only [List.cons_append, List.nil_append]
    rw [unescStep.eq_def]
    simp
  · have hc : c = Char.ofNat 12 := by rw [← Char.ofNat_toNat c, h7]
    subst hc
    simp only [List.cons_append, List.nil_append]
    rw [unescStep.eq_def]
    simp
  · rw [unescStep_u c.toNat rest (by omega) (by omega), Char.ofNat_toNat]
  · -- printable ASCII literal
    rw [unescStep.eq_def]
    simp [h1, h2]
  · rw [unescStep_u c.toNat rest (by omega) (by omega), Char.ofNat_toNat]
  · rw [List.append_assoc, unescStep_pair c.toNat rest (by omega) (by omega),
      Char.ofNat_toNat]

theorem escStr_cons (c : Char) (t : List Char) :
    escStr (c :: t) = escChar c ++ escStr t := by
  simp [escStr]

theorem unescStep_quote (r : List Char) : unescStep ('"' :: r) = none := by
  rw [unescStep.eq_def]
  simp

/-- A serialized string body followed by its closing quote determines the
string and the remainder. -/
theorem escStr_det (s1 : List Char) :
    ∀ (s2 r1 r2 : List Char),
      escStr s1 ++ '"' :: r1 = escStr s2 ++ '"' :: r2 → s1 = s2 ∧ r1 = r2 := by
  induction s1 with
  | nil =>
    intro s2 r1 r2 h
    cases s2 with
    | nil =>
      simp only [escStr, List.map_nil, List.flatten_nil, List.nil_append,
        List.cons.injEq] at h
      exact ⟨rfl, h.2⟩
    | cons c t =>
      exfalso
      rw [escStr_cons, List.append_assoc] at h
      simp only [escStr, List.map_nil, List.flatten_nil, List.nil_append] at h
      have h2 := congrArg unescStep h
      rw [unescStep_quote, unescStep_escChar] at h2
      exact Option.noConfusion h2
  | cons c1 t1 ih =>
    intro s2 r1 r2 h
    cases s2 with
    | nil =>
      exfalso
      rw [escStr_cons, List.append_assoc] at h
      simp only [escStr, List.map_nil, List.flatten_nil, List.nil_append] at h
      have h2 := congrArg unescStep h
      rw [unescStep_quote, unescStep_escChar] at h2
      exact Option.noConfusion h2
    | cons c2 t2 =>
      rw [escStr_cons, escStr_cons, List.append_assoc, List.append_assoc] at h
      have h2 := congrArg unescStep h
      rw [unescStep_escChar, unescStep_escChar] at h2
      simp only [Option.some.injEq, Prod.mk.injEq] at h2
      obtain ⟨hc, ht⟩ := h2
      obtain ⟨hteq, hreq⟩ := ih t2 r1 r2 ht
      exact ⟨by rw [hc, hteq], hreq⟩

/-- A serialized JSON string literal is prefix-determined. -/
theorem dumpStr_det (s1 s2 r1 r2 : List Char)
    (h : dumpStr s1 ++ r1 = dumpStr s2 ++ r2) : s1 = s2 ∧ r1 = r2 := by
  rw [dumpStr, dumpStr] at h
  simp only [List.cons_append, List.append_assoc, List.singleton_append,
    List.cons.injEq, true_and] at h
  exact escStr_det s1 s2 r1 r2 h

/-- A comma-space-joined sequence closed by a distinguished terminator is
prefix-determined whenever its items are. -/
theorem sepJoin_det {α : Type} (f : α → List Char) (ch : Char)
    (hch : ch ≠ ',')
    (hhead : ∀ x, ∃ d ds, f x = d :: ds ∧ d ≠ ch)
    (hdet : ∀ x1 x2 r1 r2, f x1 ++ r1 = f x2 ++ r2 → x1 = x2 ∧ r1 = r2) :
    ∀ l1 l2 r1 r2, sepJoin f l1 ++ ch :: r1 = sepJoin f l2 ++ ch :: r2 →
      l1 = l2 ∧ r1 = r2 := by
  intro l1
  induction l1 with
  | nil =>
    intro l2 r1 r2 h
    cases l2 with
    | nil =>
      simp only [sepJoin, List.nil_append, List.cons.injEq] at h
      exact ⟨rfl, h.2⟩
    | cons x t =>
      exfalso
      obtain ⟨d, ds, hfx, hd⟩ := hhead x
      have hstep : ∃ q, sepJoin f (x :: t) = f x ++ q := by
        cases t with
        | nil => exact ⟨[], by simp [sepJoin]⟩
        | cons y t2 => exact ⟨',' :: ' ' :: sepJoin f (y :: t2), by rw [sepJoin] <;> simp⟩
      obtain ⟨q, hq⟩ := hstep
      rw [hq, hfx] at h
      simp only [sepJoin, List.nil_append, List.cons_append, List.cons.injEq] at h
      exact hd h.1.symm
  | cons x1 t1 ih =>
    intro l2 r1 r2 h
    cases l2 with
    | nil =>
      exfalso
      obtain ⟨d, ds, hfx, hd⟩ := hhead x1
      have hstep : ∃ q, sepJoin f (x1 :: t1) = f x1 ++ q := by
        cases t1 with
        | nil => exact ⟨[], by simp [sepJoin]⟩
        | cons y t2 => exact ⟨',' :: ' ' :: sepJoin f (y :: t2), by rw [sepJoin] <;> simp⟩
      obtain ⟨q, hq⟩ := hstep
      rw [hq, hfx] at h
      simp only [sepJoin, List.nil_append, List.cons_append, List.cons.injEq] at h
      exact hd h.1
    | cons x2 t2 =>
      cases t1 with
      | nil =>
        cases t2 with
        | nil =>
          simp only [sepJoin] at h
          obtain ⟨hx, ht⟩ := hdet x1 x2 (ch :: r1) (ch :: r2) h
          simp only [List.cons_append, List.cons.injEq] at ht
          exact ⟨by rw [hx], ht.2⟩
        | cons y2 t2' =>
          exfalso
          rw [show sepJoin f [x1] = f x1 from by simp [sepJoin],
            show sepJoin f (x2 :: y2 :: t2') =
                f x2 ++ ',' :: ' ' :: sepJoin f (y2 :: t2') from by rw [sepJoin] <;> simp,
            List.append_assoc] at h
          obtain ⟨-, ht⟩ := hdet x1 x2 _ _ h
          simp only [List.cons_append, List.cons.injEq] at ht
          exact hch ht.1
      | cons y1 t1' =>
        cases t2 with
        | nil =>
          exfalso
          rw [show sepJoin f [x2] = f x2 from by simp [sepJoin],
            show sepJoin f (x1 :: y1 :: t1') =
                f x1 ++ ',' :: ' ' :: sepJoin f (y1 :: t1') from by rw [sepJoin] <;> simp,
            List.append_assoc] at h
          obtain ⟨-, ht⟩ := hdet x1 x2 _ _ h
          simp only [List.cons_append, List.cons.injEq] at ht
          exact hch ht.1.symm
        | cons y2 t2' =>
          rw [show sepJoin f (x1 :: y1 :: t1') =
                f x1 ++ ',' :: ' ' :: sepJoin f (y1 :: t1') from by rw [sepJoin] <;> simp,
            show sepJoin f (x2 :: y2 :: t2') =
                f x2 ++ ',' :: ' ' :: sepJoin f (y2 :: t2') from by rw [sepJoin] <;> simp,
            List.append_assoc, List.append_assoc] at h
          obtain ⟨hx, ht⟩ := hdet x1 x2 _ _ h
          simp only [List.cons_append, List.cons.injEq, true_and] at ht
          obtain ⟨hts, htr⟩ := ih (y2 :: t2') r1 r2 ht
          exact ⟨by rw [hx, hts], htr⟩

theorem dumpStr_head (s : List Char) :
    dumpStr s = '"' :: (escStr s ++ ['"']) := rfl

/-- A serialized parameter value is prefix-determined. -/
theorem dumpPVal_det (v1 v2 : PVal) (r1 r2 : List Char)
    (h : dumpPVal v1 ++ r1 = dumpPVal v2 ++ r2) : v1 = v2 ∧ r1 = r2 := by
  cases v1 with
  | pstr s1 =>
    cases v2 with
    | pstr s2 =>
      obtain ⟨hs, hr⟩ := dumpStr_det s1 s2 r1 r2 h
      exact ⟨by rw [hs], hr⟩
    | pbool b2 =>
      exfalso
      cases b2 <;>
        simp [dumpPVal, dumpStr_head, List.cons_append] at h
    | plist l2 =>
      exfalso
      simp [dumpPVal, dumpStr_head, List.cons_append] at h
  | pbool b1 =>
    cases v2 with
    | pstr s2 =>
      exfalso
      cases b1 <;>
        simp [dumpPVal, dumpStr_head, List.cons_append] at h
    | pbool b2 =>
      cases b1 <;> cases b2 <;> simp [dumpPVal] at h ⊢ <;> exact h
    | plist l2 =>
      exfalso
      cases b1 <;> simp [dumpPVal, List.cons_append] at h
  | plist l1 =>
    cases v2 with
    | pstr s2 =>
      exfalso
      simp [dumpPVal, dumpStr_head, List.cons_append] at h
    | pbool b2 =>
      exfalso
      cases b2 <;> simp [dumpPVal, List.cons_append] at h
    | plist l2 =>
      simp only [dumpPVal, List.cons_append, List.append_assoc,
        List.singleton_append, List.cons.injEq, true_and] at h
      obtain ⟨hl, hr⟩ := sepJoin_det dumpStr ']' (by decide)
        (fun s => ⟨'"', escStr s ++ ['"'], dumpStr_head s, by decide⟩)
        dumpStr_det l1 l2 r1 r2 h
      exact ⟨by rw [hl], hr⟩

/-- A serialized `"key": value` entry is prefix-determined. -/
theorem dumpEntry_det (e1 e2 : List Char × PVal) (r1 r2 : List Char)
    (h : dumpEntry e1 ++ r1 = dumpEntry e2 ++ r2) : e1 = e2 ∧ r1 = r2 := by
  rw [dumpEntry, dumpEntry, List.append_assoc, List.append_assoc] at h
  obtain ⟨hk, ht⟩ := dumpStr_det e1.1 e2.1 _ _ h
  simp only [List.cons_append, List.cons.injEq, true_and] at ht
  obtain ⟨hv, hr⟩ := dumpPVal_det e1.2 e2.2 r1 r2 ht
  exact ⟨Prod.ext hk hv, hr⟩

theorem dumpEntry_head (e : List Char × PVal) :
    dumpEntry e = '"' :: (escStr e.1 ++ ['"'] ++ ':' :: ' ' :: dumpPVal e.2) := by
  rw [dumpEntry, dumpStr_head]
  simp [List.append_assoc]

/-- A serialized `"tool": {params}` entry is prefix-determined. -/
theorem dumpTool_det (e1 e2 : List Char × List (List Char × PVal))
    (r1 r2 : List Char) (h : dumpTool e1 ++ r1 = dumpTool e2 ++ r2) :
    e1 = e2 ∧ r1 = r2 := by
  rw [dumpTool, dumpTool, List.append_assoc, List.append_assoc] at h
  obtain ⟨hk, ht⟩ := dumpStr_det e1.1 e2.1 _ _ h
  simp only [List.cons_append, List.cons.injEq, true_and, List.append_assoc,
    List.singleton_append, dumpParams] at ht
  obtain ⟨hp, hr⟩ := sepJoin_det dumpEntry '}' (by decide)
    (fun e => ⟨'"', _, dumpEntry_head e, by decide⟩)
    dumpEntry_det e1.2 e2.2 r1 r2 ht
  exact ⟨Prod.ext hk hp, hr⟩

theorem dumpTool_head (e : List Char × List (List Char × PVal)) :
    dumpTool e =
      '"' :: (escStr e.1 ++ ['"'] ++ ':' :: ' ' :: '{' ::
        (dumpParams e.2 ++ ['}'])) := by
  rw [dumpTool, dumpStr_head]
  simp [List.append_assoc]

/-- The canonical serialization is injective: distinct configurations
serialize differently, hence fingerprint differently. -/
theorem dumpConfig_inj (cfg cfg' : AgentConfig)
    (h : dumpConfig cfg = dumpConfig cfg') : cfg = cfg' := by
  rw [dumpConfig, dumpConfig] at h
  simp only [List.cons_append, List.nil_append, List.append_assoc,
    List.cons.injEq, true_and] at h
  obtain ⟨hi, ht⟩ := dumpStr_det cfg.instructions cfg'.instructions _ _ h
  simp only [List.cons.injEq, true_and] at ht
  rw [dumpTools, dumpTools] at ht
  obtain ⟨htools, ht2⟩ := sepJoin_det dumpTool '}' (by decide)
    (fun e => ⟨'"', _, dumpTool_head e, by decide⟩) dumpTool_det
    cfg.tools cfg'.tools _ _ ht
  simp only [List.cons.injEq, true_and] at ht2
  obtain ⟨hm, -⟩ := dumpStr_det cfg.model cfg'.model _ _ ht2
  cases cfg
  cases cfg'
  simp only at hi htools hm
  simp [hi, htools, hm]

/-- C6: the fingerprint is deterministic (a pure function of the config)
and sensitive to every field: configs differing in `instructions`,
`model`, or any tool's `enabled` flag or parameter fingerprint
differently. -/
theorem config_hash_deterministic_sensitive (cfg cfg' : AgentConfig)
    (hdiff : cfg.instructions ≠ cfg'.instructions ∨ cfg.model ≠ cfg'.model ∨
      cfg.tools ≠ cfg'.tools) :
    config_hash cfg = config_hash cfg ∧ config_hash cfg ≠ config_hash cfg' := by
  refine ⟨rfl, fun h => ?_⟩
  have := dumpConfig_inj cfg cfg' h
  subst this
  rcases hdiff with hd | hd | hd <;> exact hd rfl

/-- Witness for C6: two concrete configs differing only in their
instructions have distinct fingerprints. -/
theorem config_hash_deterministic_sensitive_witness :
    ({ instructions := "You are helpful.".data,
       tools := [("code_interpreter".data, [("enabled".data, .pbool true)])],
       model := "gpt-4o".data } : AgentConfig).instructions ≠
      ({ instructions := "You are terse.".data,
         tools := [("code_interpreter".data, [("enabled".data, .pbool true)])],
         model := "gpt-4o".data } : AgentConfig).instructions ∧
    config_hash
        { instructions := "You are helpful.".data,
          tools := [("code_interpreter".data, [("enabled".data, .pbool true)])],
          model := "gpt-4o".data } ≠
      config_hash
        { instructions := "You are terse.".data,
          tools := [("code_interpreter".data, [("enabled".data, .pbool true)])],
          model := "gpt-4o".data } :=
  ⟨by decide,
   (config_hash_deterministic_sensitive
      { instructions := "You are helpful.".data,
        tools := [("code_interpreter".data, [("enabled".data, .pbool true)])],
        model := "gpt-4o".data }
      { instructions := "You are terse.".data,
        tools := [("code_interpreter".data, [("enabled".data, .pbool true)])],
        model := "gpt-4o".data }
      (Or.inl (by decide))).2⟩

/-- C7: version gating — with a persisted fingerprint equal to the current
one, `ensurePublished` performs zero publish calls; with an absent or
differing fingerprint, exactly one. -/
theorem ensurePublished_gating (cfg : AgentConfig)
    (priorFp : Option (List Char)) :
    (priorFp = some (config_hash cfg) → ensurePublished cfg priorFp = 0) ∧
      (priorFp = none ∨ priorFp ≠ some (config_hash cfg) →
        ensurePublished cfg priorFp = 1) := by
  constructor
  · intro h
    simp [ensurePublished, h]
  · intro h
    rcases h with h | h
    · simp [ensurePublished, h]
    · simp [ensurePublished, h]

/-- Witness for C7 at a concrete config: zero publish calls when the
stored fingerprint matches, one when it is absent. -/
theorem ensurePublished_gating_witness :
    ensurePublished
        { instructions := "Hi.".data, tools := [], model := "gpt-4o".data }
        (some (config_hash
          { instructions := "Hi.".data, tools := [], model := "gpt-4o".data })) = 0 ∧
      ensurePublished
        { instructions := "Hi.".data, tools := [], model := "gpt-4o".data }
        none = 1 :=
  ⟨(ensurePublished_gating
      { instructions := "Hi.".data, tools := [], model := "gpt-4o".data }
      (some (config_hash
        { instructions := "Hi.".data, tools := [], model := "gpt-4o".data }))).1 rfl,
   (ensurePublished_gating
      { instructions := "Hi.".data, tools := [], model := "gpt-4o".data }
      none).2 (Or.inl rfl)⟩

/- ============================================================
   §4  Stream decoding (`handleMessages`: TextDecoder + line splitting)
   ============================================================ -/

/-- A UTF-8 continuation byte. -/
def contB (b : Nat) : Bool :=
  0x80 ≤ b && b < 0xC0

/-- Valid second byte of a three-byte sequence with lead `b` (E0 excludes
overlongs, ED excludes surrogates). -/
def valid3snd (b b1 : Nat) : Bool :=
  if b = 0xE0 then 0xA0 ≤ b1 && b1 < 0xC0
  else if b = 0xED then 0x80 ≤ b1 && b1 < 0xA0
  else contB b1

/-- Valid second byte of a four-byte sequence with lead `b` (F0 excludes
overlongs, F4 caps at U+10FFFF). -/
def valid4snd (b b1 : Nat) : Bool :=
  if b = 0xF0 then 0x90 ≤ b1 && b1 < 0xC0
  else if b = 0xF4 then 0x80 ≤ b1 && b1 < 0x90
  else contB b1

/-- One step of the WHATWG UTF-8 decoder: consume one well-formed
sequence (emitting its code point), or one maximal invalid subpart
(emitting U+FFFD), from the head of the input; `none` when the input is
empty or a well-formed but incomplete sequence that a streaming decoder
retains for the next chunk. -/
def dgClassify : List Nat → Option (Nat × List Nat)
  | [] => none
  | b :: bs =>
    if b < 0x80 then some (b, bs)
    else if b < 0xC2 then some (0xFFFD, bs)
    else if b < 0xE0 then
      match bs with
      | [] => none
      | b1 :: bs1 =>
        if contB b1 then some ((b - 0xC0) * 64 + (b1 - 0x80), bs1)
        else some (0xFFFD, b1 :: bs1)
    else if b < 0xF0 then
      match bs with
      | [] => none
      | b1 :: bs1 =>
        if valid3snd b b1 then
          match bs1 with
          | [] => none
          | b2 :: bs2 =>
            if contB b2 then
              some ((b - 0xE0) * 4096 + (b1 - 0x80) * 64 + (b2 - 0x80), bs2)
            else some (0xFFFD, b2 :: bs2)
        else some (0xFFFD, b1 :: bs1)
    else if b < 0xF5 then
      match bs with
      | [] => none
      | b1 :: bs1 =>
        if valid4snd b b1 then
          match bs1 with
          | [] => none
          | b2 :: bs2 =>
            if contB b2 then
              match bs2 with
              | [] => none
              | b3 :: bs3 =>
                if contB b3 then
                  some ((b - 0xF0) * 262144 + (b1 - 0x80) * 4096 +
                    (b2 - 0x80) * 64 + (b3 - 0x80), bs3)
                else some (0xFFFD, b3 :: bs3)
            else some (0xFFFD, b2 :: bs2)
        else some (0xFFFD, b1 :: bs1)
    else some (0xFFFD, bs)

theorem dgClassify_length (l : List Nat) (c : Nat) (rest : List Nat)
    (h : dgClassify l = some (c, rest)) : rest.length < l.length := by
  rcases l with - | ⟨b, - | ⟨b1, - | ⟨b2, - | ⟨b3, bs⟩⟩⟩⟩ <;>
    (rw [dgClassify] at h <;> (try split_ifs at h) <;> simp_all <;> omega)

/-- The WHATWG streaming UTF-8 decode as `TextDecoder.decode(_, {stream:
true})` performs it: iterate the step (`dgClassify`) to emit code points
(U+FFFD for invalid subparts) and retain a trailing well-formed but
incomplete sequence for the next chunk.  Written as one structural
recursion so that concrete streams evaluate; `decodeGreedy_classify`
below restates it as the iterated step. -/
def decodeGreedy : List Nat → List Nat × List Nat
  | [] => ([], [])
  | b :: bs =>
    if b < 0x80 then
      let p := decodeGreedy bs
      (b :: p.1, p.2)
    else if b < 0xC2 then
      let p := decodeGreedy bs
      (0xFFFD :: p.1, p.2)
    else if b < 0xE0 then
      match bs with
      | [] => ([], [b])
      | b1 :: bs1 =>
        if contB b1 then
          let p := decodeGreedy bs1
          (((b - 0xC0) * 64 + (b1 - 0x80)) :: p.1, p.2)
        else
          let p := decodeGreedy (b1 :: bs1)
          (0xFFFD :: p.1, p.2)
    else if b < 0xF0 then
      match bs with
      | [] => ([], [b])
      | b1 :: bs1 =>
        if valid3snd b b1 then
          match bs1 with
          | [] => ([], [b, b1])
          | b2 :: bs2 =>
            if contB b2 then
              let p := decodeGreedy bs2
              (((b - 0xE0) * 4096 + (b1 - 0x80) * 64 + (b2 - 0x80)) :: p.1, p.2)
            else
              let p := decodeGreedy (b2 :: bs2)
              (0xFFFD :: p.1, p.2)
        else
          let p := decodeGreedy (b1 :: bs1)
          (0xFFFD :: p.1, p.2)
    else if b < 0xF5 then
      match bs with
      | [] => ([], [b])
      | b1 :: bs1 =>
        if valid4snd b b1 then
          match bs1 with
          | [] => ([], [b, b1])
          | b2 :: bs2 =>
            if contB b2 then
              match bs2 with
              | [] => ([], [b, b1, b2])
              | b3 :: bs3 =>
                if contB b3 then
                  let p := decodeGreedy bs3
                  (((b - 0xF0) * 262144 + (b1 - 0x80) * 4096 +
                    (b2 - 0x80) * 64 + (b3 - 0x80)) :: p.1, p.2)
                else
                  let p := decodeGreedy (b3 :: bs3)
                  (0xFFFD :: p.1, p.2)
            else
              let p := decodeGreedy (b2 :: bs2)
              (0xFFFD :: p.1, p.2)
        else
          let p := decodeGreedy (b1 :: bs1)
          (0xFFFD :: p.1, p.2)
    else
      let p := decodeGreedy bs
      (0xFFFD :: p.1, p.2)

set_option maxHeartbeats 3000000 in
theorem decodeGreedy_classify (l : List Nat) :
    decodeGreedy l =
      match dgClassify l with
      | some (c, rest) => (c :: (decodeGreedy rest).1, (decodeGreedy rest).2)
      | none => ([], l) := by
  rcases l with - | ⟨b, - | ⟨b1, - | ⟨b2, - | ⟨b3, bs⟩⟩⟩⟩ <;>
    rw [decodeGreedy.eq_def, dgClassify.eq_def] <;>
    simp only [] <;>
    (try split_ifs) <;> simp_all

theorem decodeGreedy_some (l : List Nat) (c : Nat) (rest : List Nat)
    (h : dgClassify l = some (c, rest)) :
    decodeGreedy l = (c :: (decodeGreedy rest).1, (decodeGreedy rest).2) := by
  rw [decodeGreedy_classify, h]

theorem decodeGreedy_none (l : List Nat) (h : dgClassify l = none) :
    decodeGreedy l = ([], l) := by
  rw [decodeGreedy_classify, h]

set_option maxHeartbeats 3000000 in
theorem dgClassify_append (l y : List Nat) (c : Nat) (rest : List Nat)
    (h : dgClassify l = some (c, rest)) :
    dgClassify (l ++ y) = some (c, rest ++ y) := by
  rcases l with - | ⟨b, - | ⟨b1, - | ⟨b2, - | ⟨b3, bs⟩⟩⟩⟩ <;>
    simp only [List.cons_append, List.nil_append] <;>
    rw [dgClassify.eq_def] at h ⊢ <;>
    simp only [] at h ⊢ <;>
    (try split_ifs at h ⊢) <;> (try simp_all) <;>
    (try (obtain ⟨-, h2⟩ := h; simp [← h2]))

/-- Streaming invariance of the byte-level decoder: decoding `x ++ y` is
decoding `x`, then decoding its retained tail prepended to `y`. -/
theorem decodeGreedy_append_aux (n : Nat) :
    ∀ (x : List Nat), x.length = n → ∀ y, decodeGreedy (x ++ y) =
      ((decodeGreedy x).1 ++ (decodeGreedy ((decodeGreedy x).2 ++ y)).1,
       (decodeGreedy ((decodeGreedy x).2 ++ y)).2) := by
  induction n using Nat.strong_induction_on with
  | _ n ih =>
  intro x hx y
  cases hc : dgClassify x with
  | none =>
    rw [decodeGreedy_none x hc]
    simp
  | some p =>
    obtain ⟨c, rest⟩ := p
    rw [decodeGreedy_some x c rest hc,
      decodeGreedy_some (x ++ y) c (rest ++ y) (dgClassify_append x y c rest hc)]
    have hlen := dgClassify_length x c rest hc
    have := ih rest.length (by omega) rest rfl y
    rw [this]
    simp

/-- Streaming invariance of the byte-level decoder: decoding `x ++ y` is
decoding `x`, then decoding its retained tail prepended to `y`. -/
theorem decodeGreedy_append (x y : List Nat) :
    decodeGreedy (x ++ y) =
      ((decodeGreedy x).1 ++ (decodeGreedy ((decodeGreedy x).2 ++ y)).1,
       (decodeGreedy ((decodeGreedy x).2 ++ y)).2) :=
  decodeGreedy_append_aux x.length x rfl y

theorem decodeGreedy_snd_pending_aux (n : Nat) :
    ∀ (x : List Nat), x.length = n →
      decodeGreedy (decodeGreedy x).2 = ([], (decodeGreedy x).2) := by
  induction n using Nat.strong_induction_on with
  | _ n ih =>
  intro x hx
  cases hc : dgClassify x with
  | none =>
    rw [decodeGreedy_none x hc, decodeGreedy_none x hc]
  | some p =>
    obtain ⟨c, rest⟩ := p
    rw [decodeGreedy_some x c rest hc]
    have hlen := dgClassify_length x c rest hc
    exact ih rest.length (by omega) rest rfl

/-- The retained tail is inert: feeding it alone to the decoder emits
nothing and retains it unchanged. -/
theorem decodeGreedy_snd_pending (x : List Nat) :
    decodeGreedy (decodeGreedy x).2 = ([], (decodeGreedy x).2) :=
  decodeGreedy_snd_pending_aux x.length x rfl

/-- Split at the first newline, mirroring `buffer.indexOf("\n")` followed
by the two `slice` calls: the text before the newline and the text after
it. -/
def splitFirstNl : List Nat → Option (List Nat × List Nat)
  | [] => none
  | c :: rest =>
    if c = 10 then some ([], rest)
    else Option.map (fun p => (c :: p.1, p.2)) (splitFirstNl rest)

theorem splitFirstNl_length (l line rest : List Nat)
    (h : splitFirstNl l = some (line, rest)) : rest.length < l.length := by
  induction l generalizing line rest with
  | nil => simp [splitFirstNl] at h
  | cons c t ih =>
    rw [splitFirstNl] at h
    split_ifs at h with h1
    · simp only [Option.some.injEq, Prod.mk.injEq] at h
      obtain ⟨-, h5⟩ := h
      subst h5
      simp
    · simp at h
      obtain ⟨a, hfc, -⟩ := h
      have := ih a rest hfc
      simp
      omega

/-- Code points removed by JavaScript `String.prototype.trim`
(WhiteSpace and LineTerminator). -/
def jsWs (c : Nat) : Bool :=
  c = 9 || c = 10 || c = 11 || c = 12 || c = 13 || c = 32 || c = 160 ||
    c = 0x2028 || c = 0x2029 || c = 0xFEFF

/-- JavaScript `line.trim()`. -/
def jsTrim (l : List Nat) : List Nat :=
  ((l.dropWhile jsWs).reverse.dropWhile jsWs).reverse

/-- Extract every complete (newline-terminated) line from the buffer,
trimming each as `buffer.slice(0, boundary).trim()` does, and return the
trailing partial line kept in the buffer. -/
def extractLines (buf : List Nat) : List (List Nat) × List Nat :=
  match h : splitFirstNl buf with
  | some (raw, rest) =>
    ((jsTrim raw) :: (extractLines rest).1, (extractLines rest).2)
  | none => ([], buf)
termination_by buf.length
decreasing_by all_goals (simp_wf; exact splitFirstNl_length buf raw rest h)

theorem extractLines_some (buf raw rest : List Nat)
    (h : splitFirstNl buf = some (raw, rest)) :
    extractLines buf =
      ((jsTrim raw) :: (extractLines rest).1, (extractLines rest).2) := by
  rw [extractLines]
  split
  · rename_i raw2 rest2 h2
    rw [h] at h2
    simp only [Option.some.injEq, Prod.mk.injEq] at h2
    rw [h2.1, h2.2]
  · rename_i h2
    rw [h] at h2
    simp at h2

theorem extractLines_none (buf : List Nat) (h : splitFirstNl buf = none) :
    extractLines buf = ([], buf) := by
  rw [extractLines]
  split
  · rename_i raw2 rest2 h2
    rw [h] at h2
    simp at h2
  · rfl

theorem splitFirstNl_append_some (x y raw rest : List Nat)
    (h : splitFirstNl x = some (raw, rest)) :
    splitFirstNl (x ++ y) = some (raw, rest ++ y) := by
  induction x generalizing raw rest with
  | nil => simp [splitFirstNl] at h
  | cons c t ih =>
    rw [splitFirstNl] at h
    rw [List.cons_append, splitFirstNl]
    split_ifs at h ⊢ with h1
    · simp only [Option.some.injEq, Prod.mk.injEq] at h ⊢
      exact ⟨h.1, by rw [← h.2]⟩
    · simp only [Option.map_eq_some'] at h
      obtain ⟨p, hp, he⟩ := h
      rw [ih p.1 p.2 (by rw [hp])]
      cases he
      simp

theorem splitFirstNl_append_none (x y : List Nat)
    (h : splitFirstNl x = none) :
    splitFirstNl (x ++ y) =
      Option.map (fun p => (x ++ p.1, p.2)) (splitFirstNl y) := by
  induction x with
  | nil =>
    cases hs : splitFirstNl y with
    | none => simp [hs]
    | some p => simp [hs]
  | cons c t ih =>
    rw [splitFirstNl] at h
    split_ifs at h with h1
    have ht : splitFirstNl t = none := by
      cases hs : splitFirstNl t with
      | none => rfl
      | some p => rw [hs] at h; simp at h
    rw [List.cons_append, splitFirstNl, if_neg h1, ih ht]
    cases hs : splitFirstNl y with
    | none => simp [hs]
    | some p => simp [hs]

theorem extractLines_append_aux (n : Nat) :
    ∀ (x : List Nat), x.length = n → ∀ y, extractLines (x ++ y) =
      ((extractLines x).1 ++ (extractLines ((extractLines x).2 ++ y)).1,
       (extractLines ((extractLines x).2 ++ y)).2) := by
  induction n using Nat.strong_induction_on with
  | _ n ih =>
  intro x hx y
  cases hc : splitFirstNl x with
  | none =>
    rw [extractLines_none x hc]
    simp
  | some p =>
    obtain ⟨raw, rest⟩ := p
    rw [extractLines_some x raw rest hc,
      extractLines_some (x ++ y) raw (rest ++ y)
        (splitFirstNl_append_some x y raw rest hc)]
    have hlen := splitFirstNl_length x raw rest hc
    have := ih rest.length (by omega) rest rfl y
    rw [this]
    simp

/-- Streaming invariance of the line splitter: splitting `x ++ y` is
splitting `x`, then splitting its retained partial line prepended to
`y`. -/
theorem extractLines_append (x y : List Nat) :
    extractLines (x ++ y) =
      ((extractLines x).1 ++ (extractLines ((extractLines x).2 ++ y)).1,
       (extractLines ((extractLines x).2 ++ y)).2) :=
  extractLines_append_aux x.length x rfl y

/-- The retained partial line holds no newline: splitting it again emits
nothing. -/
theorem extractLines_snd_nl_aux (n : Nat) :
    ∀ (x : List Nat), x.length = n → splitFirstNl (extractLines x).2 = none := by
  induction n using Nat.strong_induction_on with
  | _ n ih =>
  intro x hx
  cases hc : splitFirstNl x with
  | none => rw [extractLines_none x hc]; exact hc
  | some p =>
    obtain ⟨raw, rest⟩ := p
    rw [extractLines_some x raw rest hc]
    have hlen := splitFirstNl_length x raw rest hc
    exact ih rest.length (by omega) rest rfl

theorem extractLines_snd_nl (x : List Nat) :
    splitFirstNl (extractLines x).2 = none :=
  extractLines_snd_nl_aux x.length x rfl

/-- The state the stream decoder carries between chunks: the incomplete
UTF-8 tail retained by `TextDecoder` and the `buffer` string holding the
trailing partial line. -/
structure DecState where
  pending : List Nat
  buffer : List Nat
deriving DecidableEq, Repr

/-- Process one network chunk as `handleMessages` does: decode the bytes
(streaming), append to the buffer, and extract every complete line. -/
def decodeChunk (st : DecState) (chunk : List Nat) :
    List (List Nat) × DecState :=
  let d := decodeGreedy (st.pending ++ chunk)
  let e := extractLines (st.buffer ++ d.1)
  (e.1, ⟨d.2, e.2⟩)

/-- Process a whole sequence of chunks, concatenating the emitted lines. -/
def decodeStream (st : DecState) : List (List Nat) → List (List Nat) × DecState
  | [] => ([], st)
  | c :: cs =>
    let r := decodeChunk st c
    let r2 := decodeStream r.2 cs
    (r.1 ++ r2.1, r2.2)

/-- The stream decoder of one relay invocation, started fresh. -/
def streamDecode (chunks : List (List Nat)) : List (List Nat) × DecState :=
  decodeStream ⟨[], []⟩ chunks

/-- A decoder state is normalized when its pending tail decodes to
nothing and its buffer holds no newline. -/
def DecNorm (st : DecState) : Prop :=
  decodeGreedy st.pending = ([], st.pending) ∧ splitFirstNl st.buffer = none

theorem decodeChunk_norm (st : DecState) (c : List Nat) :
    DecNorm (decodeChunk st c).2 := by
  constructor
  · exact decodeGreedy_snd_pending (st.pending ++ c)
  · exact extractLines_snd_nl _

theorem decodeChunk_comp (st : DecState) (c d : List Nat) :
    decodeChunk st (c ++ d) =
      ((decodeChunk st c).1 ++ (decodeChunk (decodeChunk st c).2 d).1,
       (decodeChunk (decodeChunk st c).2 d).2) := by
  simp only [decodeChunk]
  rw [show st.pending ++ (c ++ d) = (st.pending ++ c) ++ d from by simp,
    decodeGreedy_append (st.pending ++ c) d]
  rw [show st.buffer ++ ((decodeGreedy (st.pending ++ c)).1 ++
      (decodeGreedy ((decodeGreedy (st.pending ++ c)).2 ++ d)).1) =
      (st.buffer ++ (decodeGreedy (st.pending ++ c)).1) ++
      (decodeGreedy ((decodeGreedy (st.pending ++ c)).2 ++ d)).1 from by simp,
    extractLines_append (st.buffer ++ (decodeGreedy (st.pending ++ c)).1)]

theorem decodeStream_flatten (chunks : List (List Nat)) :
    ∀ (st : DecState), DecNorm st →
      decodeStream st chunks = decodeChunk st chunks.flatten := by
  induction chunks with
  | nil =>
    intro st hn
    obtain ⟨hp, hb⟩ := hn
    simp only [decodeStream, decodeChunk, List.flatten_nil, List.append_nil,
      hp, extractLines_none st.buffer hb]
  | cons c cs ih =>
    intro st hn
    rw [decodeStream, ih (decodeChunk st c).2 (decodeChunk_norm st c),
      List.flatten_cons, decodeChunk_comp st c cs.flatten]

theorem decodeStream_norm (chunks : List (List Nat)) :
    ∀ (st : DecState), DecNorm st → DecNorm (decodeStream st chunks).2 := by
  induction chunks with
  | nil => intro st hn; exact hn
  | cons c cs ih =>
    intro st hn
    rw [decodeStream]
    exact ih (decodeChunk st c).2 (decodeChunk_norm st c)

/-- C2: partition invariance of the stream decoder — any chunking of a
byte sequence (including splits mid-line or mid-multi-byte character)
emits exactly the ordered line sequence of the unpartitioned decode and
ends in the same decoder state; and the retained buffer is always a
partial line (it holds no newline).  Proved for every byte sequence,
well-formed or not. -/
theorem streamDecode_partition_invariant (chunks : List (List Nat)) :
    streamDecode chunks = streamDecode [chunks.flatten] ∧
      splitFirstNl (streamDecode chunks).2.buffer = none := by
  have hnorm : DecNorm ⟨[], []⟩ := ⟨decodeGreedy_none [] rfl, rfl⟩
  constructor
  · rw [streamDecode, streamDecode,
      decodeStream_flatten chunks ⟨[], []⟩ hnorm,
      decodeStream_flatten [chunks.flatten] ⟨[], []⟩ hnorm]
    simp
  · exact (decodeStream_norm chunks ⟨[], []⟩ hnorm).2

/- ============================================================
   §5  Event interpretation and the relay loop (`handleMessages`)
   ============================================================ -/

/-- A JavaScript value produced by `JSON.parse` on a protocol frame.
Numbers keep their raw digits (the protocol never carries numbers whose
numeric value matters). -/
inductive JVal where
  | jnull
  | jbool (b : Bool)
  | jnum (raw : List Nat)
  | jstr (s : List Nat)
  | jarr (elems : List JVal)
  | jobj (fields : List (List Nat × JVal))

/-- JSON insignificant whitespace. -/
def jsonWsChar (c : Nat) : Bool :=
  c = 32 || c = 9 || c = 10 || c = 13

/-- Hexadecimal digit value for `\uXXXX` escapes (both cases). -/
def hexValN (c : Nat) : Option Nat :=
  if 48 ≤ c && c ≤ 57 then some (c - 48)
  else if 97 ≤ c && c ≤ 102 then some (c - 87)
  else if 65 ≤ c && c ≤ 70 then some (c - 55)
  else none

/-- Body of a JSON string literal after the opening quote: unescape until
the closing quote; a control character or bad escape fails the parse.
`\uXXXX` escapes become their UTF-16 unit (surrogate recombination is
not modelled; the protocol's frames never use astral escapes). -/
def parseStringBody : List Nat → Option (List Nat × List Nat)
  | [] => none
  | 34 :: rest => some ([], rest)
  | 92 :: 34 :: rest =>
    Option.map (fun p => (34 :: p.1, p.2)) (parseStringBody rest)
  | 92 :: 92 :: rest =>
    Option.map (fun p => (92 :: p.1, p.2)) (parseStringBody rest)
  | 92 :: 47 :: rest =>
    Option.map (fun p => (47 :: p.1, p.2)) (parseStringBody rest)
  | 92 :: 98 :: rest =>
    Option.map (fun p => (8 :: p.1, p.2)) (parseStringBody rest)
  | 92 :: 102 :: rest =>
    Option.map (fun p => (12 :: p.1, p.2)) (parseStringBody rest)
  | 92 :: 110 :: rest =>
    Option.map (fun p => (10 :: p.1, p.2)) (parseStringBody rest)
  | 92 :: 114 :: rest =>
    Option.map (fun p => (13 :: p.1, p.2)) (parseStringBody rest)
  | 92 :: 116 :: rest =>
    Option.map (fun p => (9 :: p.1, p.2)) (parseStringBody rest)
  | 92 :: 117 :: h1 :: h2 :: h3 :: h4 :: rest =>
    (match hexValN h1, hexValN h2, hexValN h3, hexValN h4 with
     | some v1, some v2, some v3, some v4 =>
       Option.map
         (fun p => ((v1 * 4096 + v2 * 256 + v3 * 16 + v4) :: p.1, p.2))
         (parseStringBody rest)
     | _, _, _, _ => none)
  | 92 :: _ => none
  | c :: rest =>
    if c < 0x20 then none
    else Option.map (fun p => (c :: p.1, p.2)) (parseStringBody rest)

/-- Decimal digits prefix. -/
def takeDigits (l : List Nat) : List Nat × List Nat :=
  (l.takeWhile (fun c => 48 ≤ c && c ≤ 57),
   l.dropWhile (fun c => 48 ≤ c && c ≤ 57))

/-- A JSON number per the RFC 8259 grammar, captured raw. -/
def parseNumber (l : List Nat) : Option (List Nat × List Nat) :=
  let (neg, l1) := match l with
    | 45 :: r => (([45] : List Nat), r)
    | _ => ([], l)
  match l1 with
  | 48 :: r1 => parseNumberFrac (neg ++ [48]) r1
  | c :: _ =>
    if 49 ≤ c && c ≤ 57 then
      let (ds, r1) := takeDigits l1
      parseNumberFrac (neg ++ ds) r1
    else none
  | [] => none
where
  parseNumberFrac (acc : List Nat) (l : List Nat) :
      Option (List Nat × List Nat) :=
    match l with
    | 46 :: r =>
      (match takeDigits r with
       | ([], _) => none
       | (ds, r1) => parseNumberExp (acc ++ 46 :: ds) r1)
    | _ => parseNumberExp acc l
  parseNumberExp (acc : List Nat) (l : List Nat) :
      Option (List Nat × List Nat) :=
    match l with
    | 101 :: r => parseNumberExpTail acc [101] r
    | 69 :: r => parseNumberExpTail acc [69] r
    | _ => some (acc, l)
  parseNumberExpTail (acc pre : List Nat) (l : List Nat) :
      Option (List Nat × List Nat) :=
    let (sgn, l1) := match l with
      | 43 :: r => (([43] : List Nat), r)
      | 45 :: r => (([45] : List Nat), r)
      | _ => ([], l)
    match takeDigits l1 with
    | ([], _) => none
    | (ds, r1) => some (acc ++ pre ++ sgn ++ ds, r1)

mutual

/-- Recursive-descent JSON value parser with a structural fuel; the
wrapper supplies fuel exceeding any possible nesting depth, so the fuel
never runs out on real input. -/
def parseValue : Nat → List Nat → Option (JVal × List Nat)
  | 0, _ => none
  | fuel + 1, l =>
    match l.dropWhile jsonWsChar with
    | [] => none
    | c :: rest =>
      if c = 34 then
        Option.map (fun p => (JVal.jstr p.1, p.2)) (parseStringBody rest)
      else if c = 123 then
        match (rest.dropWhile jsonWsChar) with
        | 125 :: r2 => some (.jobj [], r2)
        | _ => Option.map (fun p => (JVal.jobj p.1, p.2))
            (parseMembers fuel rest)
      else if c = 91 then
        match (rest.dropWhile jsonWsChar) with
        | 93 :: r2 => some (.jarr [], r2)
        | _ => Option.map (fun p => (JVal.jarr p.1, p.2))
            (parseItems fuel rest)
      else if c = 116 then
        match rest with
        | 114 :: 117 :: 101 :: r2 => some (.jbool true, r2)
        | _ => none
      else if c = 102 then
        match rest with
        | 97 :: 108 :: 115 :: 101 :: r2 => some (.jbool false, r2)
        | _ => none
      else if c = 110 then
        match rest with
        | 117 :: 108 :: 108 :: r2 => some (.jnull, r2)
        | _ => none
      else
        Option.map (fun p => (JVal.jnum p.1, p.2)) (parseNumber (c :: rest))

/-- Members of a JSON object after its opening brace (non-empty case). -/
def parseMembers : Nat → List Nat → Option (List (List Nat × JVal) × List Nat)
  | 0, _ => none
  | fuel + 1, l =>
    match l.dropWhile jsonWsChar with
    | 34 :: rest =>
      (match parseStringBody rest with
       | none => none
       | some (key, r1) =>
         match r1.dropWhile jsonWsChar with
         | 58 :: r2 =>
           (match parseValue fuel r2 with
            | none => none
            | some (v, r3) =>
              match r3.dropWhile jsonWsChar with
              | 44 :: r4 =>
                Option.map (fun p => ((key, v) :: p.1, p.2))
                  (parseMembers fuel r4)
              | 125 :: r4 => some ([(key, v)], r4)
              | _ => none)
         | _ => none)
    | _ => none

/-- Items of a JSON array after its opening bracket (non-empty case). -/
def parseItems : Nat → List Nat → Option (List JVal × List Nat)
  | 0, _ => none
  | fuel + 1, l =>
    match parseValue fuel l with
    | none => none
    | some (v, r1) =>
      match r1.dropWhile jsonWsChar with
      | 44 :: r2 =>
        Option.map (fun p => (v :: p.1, p.2)) (parseItems fuel r2)
      | 93 :: r2 => some ([v], r2)
      | _ => none

end

/-- `JSON.parse`: parse one value and require only whitespace after it. -/
def parseJson (l : List Nat) : Option JVal :=
  match parseValue (2 * l.length + 4) l with
  | some (v, rest) => if rest.dropWhile jsonWsChar = [] then some v else none
  | none => none

mutual

/-- JavaScript string coercion of a parsed value, as `+=` applies it
(`String(v)`): arrays join their items with commas (null becoming
empty), objects print as `[object Object]`; numbers keep their raw
digits (a simplification of JS number re-formatting, never exercised by
the protocol). -/
def jsToStr : JVal → List Nat
  | .jnull => codes "null"
  | .jbool true => codes "true"
  | .jbool false => codes "false"
  | .jnum raw => raw
  | .jstr s => s
  | .jarr l => jsToStrItems l
  | .jobj _ => codes "[object Object]"

/-- Comma-joined array items under JS string coercion. -/
def jsToStrItems : List JVal → List Nat
  | [] => []
  | [x] =>
    (match x with
     | .jnull => []
     | v => jsToStr v)
  | x :: rest =>
    (match x with
     | .jnull => []
     | v => jsToStr v) ++ 44 :: jsToStrItems rest

end

/-- Property lookup on a parsed object: the later of duplicate keys wins,
as in a JavaScript object literal. -/
def lookupField : List (List Nat × JVal) → List Nat → Option JVal
  | [], _ => none
  | (k, v) :: rest, key =>
    match lookupField rest key with
    | some r => some r
    | none => if k = key then some v else none

/-- `data.key` on a parsed value: `undefined` (here `none`) unless `data`
is an object carrying the key. -/
def getField : JVal → List Nat → Option JVal
  | .jobj fields, key => lookupField fields key
  | _, _ => none

/-- JavaScript truthiness of a possibly-absent value: `undefined`,
`null`, `false`, `0` and `""` are falsy. -/
def jsTruthy : Option JVal → Bool
  | none => false
  | some .jnull => false
  | some (.jbool b) => b
  | some (.jstr s) => !s.isEmpty
  | some (.jnum raw) => raw.any (fun c => 49 ≤ c && c ≤ 57)
  | some (.jarr _) => true
  | some (.jobj _) => true

/-- Strict-equality test `data.type === "<t>"`. -/
def typeIs (data : JVal) (t : List Nat) : Bool :=
  match getField data (codes "type") with
  | some (.jstr s) => s = t
  | _ => false

/-- The events a turn's processing produces, recorded as a trace for the
theorems: the interpreter's classification of each processed line. -/
inductive REvent where
  | delta (content : List Nat)
  | completedMsg (content : List Nat)
  | streamEnd
  | errorEvt (msg : List Nat)
  | skipMalformed
deriving DecidableEq, Repr

/-- How a processed line leaves the loop: fall through to the next line,
`return` from `readStream` (error event), `break` the inner line loop
(`stream_end`), or throw (a `TypeError` on `null.error`, caught by
`readStream().catch`). -/
inductive StepKind where
  | knorm
  | kret
  | kbrk
  | kcrash
deriving DecidableEq, Repr

/-- The mutable state of `handleMessages` apart from the byte buffers:
whether the assistant `chatItem` exists, `accumulatedContent`, the text
last rendered through `appendAssistantMessage`, `isStreaming`, and the
`isResponding` flag; plus the ghost trace of interpreted events. -/
structure CoreState where
  hasItem : Bool
  content : List Nat
  rendered : List Nat
  isStreaming : Bool
  responding : Bool
  trace : List REvent
deriving DecidableEq, Repr

/-- The state at the top of `handleMessages`. -/
def initCore : CoreState :=
  { hasItem := false, content := [], rendered := [], isStreaming := true,
    responding := true, trace := [] }

/-- `data.error.message || "An error occurred."` for a truthy
`data.error`. -/
def errMsgOf (e : JVal) : List Nat :=
  match getField e (codes "message") with
  | some m => if jsTruthy (some m) then jsToStr m else codes "An error occurred."
  | none => codes "An error occurred."

/-- `data.content` coerced to text; an absent field is `undefined`. -/
def contentOf (data : JVal) : List Nat :=
  match getField data (codes "content") with
  | some v => jsToStr v
  | none => codes "undefined"

/-- Interpret one successfully parsed payload exactly as the body of the
`if (chunk.startsWith("data: "))` block does, in source order: a truthy
`error` renders the message and returns; `stream_end` breaks the inner
loop; `completed_message` REPLACES the accumulated content; anything
else appends a delta; both of the last two re-render the accumulated
content.  A `null` payload throws on `data.error`. -/
def dispatchPayload (st : CoreState) (data : JVal) : CoreState × StepKind :=
  match data with
  | .jnull => (st, .kcrash)
  | _ =>
    if jsTruthy (getField data (codes "error")) then
      let e := (getField data (codes "error")).getD .jnull
      let msg := errMsgOf e
      ({ st with hasItem := true, responding := false, rendered := msg,
                 trace := st.trace ++ [.errorEvt msg] }, .kret)
    else if typeIs data (codes "stream_end") then
      ({ st with responding := false, trace := st.trace ++ [.streamEnd] }, .kbrk)
    else if typeIs data (codes "completed_message") then
      let c := contentOf data
      ({ st with hasItem := true, content := c, rendered := c,
                 isStreaming := false, responding := false,
                 trace := st.trace ++ [.completedMsg c] }, .knorm)
    else
      let c := contentOf data
      ({ st with hasItem := true, content := st.content ++ c,
                 rendered := st.content ++ c,
                 trace := st.trace ++ [.delta c] }, .knorm)

/-- Process one extracted (trimmed) line: ignore lines without the
`"data: "` prefix, log-and-skip lines whose JSON fails to parse, and
dispatch the parsed payload. -/
def processLine (st : CoreState) (line : List Nat) : CoreState × StepKind :=
  if (codes "data: ").isPrefixOf line then
    match parseJson (line.drop 6) with
    | none => ({ st with trace := st.trace ++ [.skipMalformed] }, .knorm)
    | some data => dispatchPayload st data
  else (st, .knorm)

/-- The inner `while (boundary !== -1)` loop: repeatedly slice a line off
the buffer, trim and process it; `return`, `break` and thrown errors end
the loop early with the already-sliced buffer retained.  The fuel is one
more than the buffer length, which the loop (consuming at least the
newline each iteration) can never exhaust. -/
def lineLoop : Nat → CoreState → List Nat → CoreState × List Nat × StepKind
  | 0, st, buf => (st, buf, .knorm)
  | fuel + 1, st, buf =>
    match splitFirstNl buf with
    | none => (st, buf, .knorm)
    | some (raw, rest) =>
      match processLine st (jsTrim raw) with
      | (st2, .knorm) => lineLoop fuel st2 rest
      | (st2, k) => (st2, rest, k)

/-- Result of one relay invocation: final interpreter state, the two
retained buffers, and whether the read loop exited (stream closed). -/
structure RelayResult where
  core : CoreState
  pending : List Nat
  buffer : List Nat
  closed : Bool
deriving DecidableEq, Repr

/-- The outer `while (true)` read loop of `readStream`, fuelled: on each
chunk, decode bytes, extend the buffer, run the line loop; `return` and
thrown errors exit the loop, while `break` on `stream_end` only ends the
current line loop — reading continues with the next chunk, as in the
source.  When the source reports `done`, the loop exits (stream
closed). -/
def readLoop : Nat → CoreState → List Nat → List Nat → List (List Nat) →
    RelayResult
  | 0, st, pend, buf, _ =>
    { core := st, pending := pend, buffer := buf, closed := false }
  | _ + 1, st, pend, buf, [] =>
    { core := st, pending := pend, buffer := buf, closed := true }
  | fuel + 1, st, pend, buf, c :: cs =>
    let d := decodeGreedy (pend ++ c)
    let buf2 := buf ++ d.1
    let r := lineLoop (buf2.length + 1) st buf2
    match r.2.2 with
    | .knorm => readLoop fuel r.1 d.2 r.2.1 cs
    | .kbrk => readLoop fuel r.1 d.2 r.2.1 cs
    | .kret => { core := r.1, pending := d.2, buffer := r.2.1, closed := true }
    | .kcrash => { core := r.1, pending := d.2, buffer := r.2.1, closed := true }

/-- One full `handleMessages` run over a finite chunked byte stream. -/
def handleMessages (chunks : List (List Nat)) : RelayResult :=
  readLoop (chunks.length + 1) initCore [] [] chunks

/-- The parsed payload of a protocol `message` (delta) event. -/
def mkDeltaPayload (d : List Nat) : JVal :=
  .jobj [(codes "type", .jstr (codes "message")),
         (codes "content", .jstr d)]

/-- The parsed payload of a protocol `completed_message` event. -/
def mkCompletedPayload (c : List Nat) : JVal :=
  .jobj [(codes "type", .jstr (codes "completed_message")),
         (codes "content", .jstr c)]

/-- Fold the interpreter over a sequence of parsed payloads, stopping at
the first non-fall-through step. -/
def foldDispatch (st : CoreState) : List JVal → CoreState × StepKind
  | [] => (st, .knorm)
  | d :: rest =>
    match dispatchPayload st d with
    | (st2, .knorm) => foldDispatch st2 rest
    | (st2, k) => (st2, k)

/-- Fold line processing over a sequence of extracted lines, stopping at
the first non-fall-through step. -/
def foldLines (st : CoreState) : List (List Nat) → CoreState × StepKind
  | [] => (st, .knorm)
  | l :: rest =>
    match processLine st l with
    | (st2, .knorm) => foldLines st2 rest
    | (st2, k) => (st2, k)

theorem dispatch_mkDelta (st : CoreState) (d : List Nat) :
    dispatchPayload st (mkDeltaPayload d) =
      ({ st with hasItem := true, content := st.content ++ d,
                 rendered := st.content ++ d,
                 trace := st.trace ++ [.delta d] }, .knorm) := by
  simp [dispatchPayload, mkDeltaPayload, getField, lookupField, jsTruthy,
    typeIs, contentOf, jsToStr, codes]

theorem dispatch_mkCompleted (st : CoreState) (c : List Nat) :
    dispatchPayload st (mkCompletedPayload c) =
      ({ st with hasItem := true, content := c, rendered := c,
                 isStreaming := false, responding := false,
                 trace := st.trace ++ [.completedMsg c] }, .knorm) := by
  simp [dispatchPayload, mkCompletedPayload, getField, lookupField, jsTruthy,
    typeIs, contentOf, jsToStr, codes]

/-- C1: for every turn whose payload sequence is any number of deltas
followed by a `completed_message`, the final accumulated content and the
final rendered content are exactly the completed content — the
`completed_message` REPLACES all previously accumulated delta content,
from any starting state; in particular deltas "Hi", " there" followed by
a completed message "Hi there!" render exactly "Hi there!". -/
theorem completed_message_replaces (st : CoreState) (ds : List (List Nat))
    (c : List Nat) :
    (foldDispatch st (ds.map mkDeltaPayload ++ [mkCompletedPayload c])).1.content
        = c ∧
      (foldDispatch st
          (ds.map mkDeltaPayload ++ [mkCompletedPayload c])).1.rendered = c ∧
      (foldDispatch st
          (ds.map mkDeltaPayload ++ [mkCompletedPayload c])).1.trace =
        st.trace ++ ds.map REvent.delta ++ [.completedMsg c] ∧
      (foldDispatch initCore
          ([codes "Hi", codes " there"].map mkDeltaPayload ++
            [mkCompletedPayload (codes "Hi there!")])).1.rendered =
        codes "Hi there!" := by
  suffices h : ∀ st2 : CoreState,
      (foldDispatch st2 (ds.map mkDeltaPayload ++ [mkCompletedPayload c])).1.content
          = c ∧
        (foldDispatch st2
            (ds.map mkDeltaPayload ++ [mkCompletedPayload c])).1.rendered = c ∧
        (foldDispatch st2
            (ds.map mkDeltaPayload ++ [mkCompletedPayload c])).1.trace =
          st2.trace ++ ds.map REvent.delta ++ [.completedMsg c] by
    exact ⟨(h st).1, (h st).2.1, (h st).2.2, rfl⟩
  intro st2
  induction ds generalizing st2 with
  | nil =>
    simp [foldDispatch, dispatch_mkCompleted]
  | cons d rest ih =>
    simp only [List.map_cons, List.cons_append, foldDispatch,
      dispatch_mkDelta]
    have h2 := ih
      { st2 with
        hasItem := true
        content := st2.content ++ d
        rendered := st2.content ++ d
        trace := st2.trace ++ [REvent.delta d] }
    simpa [List.append_assoc] using h2

/-- C3: a line whose payload fails to parse, sandwiched between two valid
delta lines, is skipped: both deltas are still produced and accumulated,
no error event arises from the malformed line, and processing falls
through normally. -/
theorem malformed_line_resilience (st : CoreState)
    (l1 lb l2 d1 d2 : List Nat)
    (h1p : (codes "data: ").isPrefixOf l1 = true)
    (h1 : parseJson (l1.drop 6) = some (mkDeltaPayload d1))
    (hbp : (codes "data: ").isPrefixOf lb = true)
    (hb : parseJson (lb.drop 6) = none)
    (h2p : (codes "data: ").isPrefixOf l2 = true)
    (h2 : parseJson (l2.drop 6) = some (mkDeltaPayload d2)) :
    (foldLines st [l1, lb, l2]).1.trace =
        st.trace ++ [.delta d1, .skipMalformed, .delta d2] ∧
      (foldLines st [l1, lb, l2]).1.content = st.content ++ (d1 ++ d2) ∧
      (foldLines st [l1, lb, l2]).2 = .knorm := by
  simp [foldLines, processLine, h1p, h1, hbp, hb, h2p, h2,
    dispatch_mkDelta, List.append_assoc]

/-- Witness for C3 at concrete lines: the malformed middle line is
skipped and both deltas survive. -/
theorem malformed_line_resilience_witness :
    (codes "data: ").isPrefixOf
        (codes "data: \x7b\"type\": \"message\", \"content\": \"A\"\x7d") = true ∧
      parseJson ((codes "data: \x7boops").drop 6) = none ∧
      (foldLines initCore
          [codes "data: \x7b\"type\": \"message\", \"content\": \"A\"\x7d",
           codes "data: \x7boops",
           codes "data: \x7b\"type\": \"message\", \"content\": \"B\"\x7d"]).1.trace =
        [.delta (codes "A"), .skipMalformed, .delta (codes "B")] := by
  refine ⟨rfl, rfl, ?_⟩
  have h := malformed_line_resilience initCore
    (codes "data: \x7b\"type\": \"message\", \"content\": \"A\"\x7d")
    (codes "data: \x7boops")
    (codes "data: \x7b\"type\": \"message\", \"content\": \"B\"\x7d")
    (codes "A") (codes "B") rfl rfl rfl rfl rfl rfl
  simpa [initCore] using h.1

/-- C4 (divergence witness): after a `stream_end` event the read loop
keeps reading — a `message` event arriving in a later chunk is still
interpreted, appended and rendered, because the source's `break` only
exits the inner line loop.  The claim that no event after `End` affects
the output fails on this input. -/
theorem streamEnd_then_delta_is_processed :
    (handleMessages [codes "data: \x7b\"type\": \"stream_end\"\x7d\n",
               codes "data: \x7b\"type\": \"message\", \"content\": \"X\"\x7d\n"]).core.trace =
        [.streamEnd, .delta (codes "X")] ∧
      (handleMessages [codes "data: \x7b\"type\": \"stream_end\"\x7d\n",
                 codes "data: \x7b\"type\": \"message\", \"content\": \"X\"\x7d\n"]).core.rendered =
        codes "X" ∧
      (handleMessages [codes "data: \x7b\"type\": \"stream_end\"\x7d\n",
                 codes "data: \x7b\"type\": \"message\", \"content\": \"X\"\x7d\n"]).core.content =
        codes "X" :=
  ⟨rfl, rfl, rfl⟩

theorem readLoop_closed (cs : List (List Nat)) :
    ∀ st pend buf, (readLoop (cs.length + 1) st pend buf cs).closed = true := by
  induction cs with
  | nil => intro st pend buf; rfl
  | cons c cs ih =>
    intro st pend buf
    rw [show (c :: cs).length + 1 = cs.length + 1 + 1 from by simp]
    rw [readLoop]
    cases hk : (lineLoop ((buf ++ (decodeGreedy (pend ++ c)).1).length + 1) st
        (buf ++ (decodeGreedy (pend ++ c)).1)).2.2 <;>
      simp [hk, ih]

/-- C5: on every finite input byte stream — with or without an explicit
`stream_end` event — the relay's read loop terminates and exits (closing
the outbound processing) once the byte source signals completion; the
fuel of one iteration per chunk plus the final `done` read always
suffices. -/
theorem relay_closes_on_eof (chunks : List (List Nat)) :
    (handleMessages chunks).closed = true :=
  readLoop_closed chunks initCore [] []

/- ============================================================
   §6  Citation formatting (spec-modelled)
   ============================================================ -/

/-- Modelled from the spec: the citation formatter's implementation is
not among the provided sources (the README documents only its
before/after behaviour), so the scanner here follows §4.7 of the spec
and the README's example.  Scan for the closer U+3015 of a raw citation
marker. -/
def findCiteClose : List Nat → Option (List Nat × List Nat)
  | [] => none
  | c :: rest =>
    if c = 0x3015 then some ([], rest)
    else Option.map (fun p => (c :: p.1, p.2)) (findCiteClose rest)

/-- Modelled from the spec: the source title inside a marker sits after
the dagger U+2020; per the README example the file extension (from the
last dot) is stripped and underscores become spaces. -/
def titleOf (body : List Nat) : List Nat :=
  let afterDag :=
    match body.dropWhile (fun c => c ≠ 0x2020) with
    | [] => body
    | _ :: t => t
  let noExt :=
    match afterDag.reverse.dropWhile (fun c => c ≠ 46) with
    | [] => afterDag
    | _ :: t => t.reverse
  noExt.map (fun c => if c = 95 then 32 else c)

/-- Decimal digit codes of an ordinal. -/
def decDigits (n : Nat) : List Nat :=
  (Nat.toDigits 10 n).map Char.toNat

/-- Ordinal already assigned to a marker body, if any. -/
def lookupOrd : List (List Nat × Nat) → List Nat → Option Nat
  | [], _ => none
  | (k, o) :: rest, key => if k = key then some o else lookupOrd rest key

/-- Modelled from the spec: scan left to right; on each marker
`U+3014 body U+3015` look up or assign the next ordinal (first-seen
order, starting at 1; a repeated marker reuses its ordinal), replace the
marker with the compact footnote reference `[n]`, and accumulate
`(ordinal, title)` once per ordinal.  The fuel is one more than the text
length, which the scan (consuming at least one code point per step)
never exhausts. -/
def citeScan : Nat → List (List Nat × Nat) → List (Nat × List Nat) →
    List Nat → List Nat × List (Nat × List Nat)
  | 0, _, sources, _ => ([], sources)
  | _ + 1, _, sources, [] => ([], sources)
  | fuel + 1, seen, sources, c :: rest =>
    if c = 0x3014 then
      match findCiteClose rest with
      | some (body, past) =>
        match lookupOrd seen body with
        | some ord =>
          let r := citeScan fuel seen sources past
          (91 :: (decDigits ord ++ 93 :: r.1), r.2)
        | none =>
          let ord := seen.length + 1
          let r := citeScan fuel ((body, ord) :: seen)
            (sources ++ [(ord, titleOf body)]) past
          (91 :: (decDigits ord ++ 93 :: r.1), r.2)
      | none =>
        let r := citeScan fuel seen sources rest
        (c :: r.1, r.2)
    else
      let r := citeScan fuel seen sources rest
      (c :: r.1, r.2)

/-- Modelled from the spec: `format(text) -> { text, sources }` of the
CitationFormatter, whose implementation is absent from the provided
sources. -/
def formatCitations (text : List Nat) : List Nat × List (Nat × List Nat) :=
  citeScan (text.length + 1) [] [] text

theorem citeScan_ordinals (fuel : Nat) :
    ∀ (seen : List (List Nat × Nat)) (sources : List (Nat × List Nat))
      (t : List Nat),
      sources.map Prod.fst = List.range' 1 sources.length →
      seen.length = sources.length →
      (citeScan fuel seen sources t).2.map Prod.fst =
        List.range' 1 (citeScan fuel seen sources t).2.length := by
  induction fuel with
  | zero => intro seen sources t h1 h2; simpa [citeScan] using h1
  | succ fuel ih =>
    intro seen sources t h1 h2
    match t with
    | [] => simpa [citeScan] using h1
    | c :: rest =>
      rw [citeScan]
      split_ifs with hc
      · cases hfc : findCiteClose rest with
        | none => dsimp only; exact ih seen sources rest h1 h2
        | some p =>
          obtain ⟨body, past⟩ := p
          cases ho : lookupOrd seen body with
          | some ord => simp only [ho]; exact ih seen sources past h1 h2
          | none =>
            simp only [ho]
            refine ih ((body, seen.length + 1) :: seen)
              (sources ++ [(seen.length + 1, titleOf body)]) past ?_ ?_
            · rw [List.map_append, h1, h2]
              simp [List.range'_concat]
              omega
            · simp [h2]
      · dsimp only; exact ih seen sources rest h1 h2

/-- C8: the citation formatter assigns ordinals in first-seen order
starting at 1 (the ordinals of the returned sources list are always
exactly 1..n in order); concretely, the spec's example replaces the
marker with `[1]` and returns source `(1, "doc")`, a second distinct
marker receives ordinal 2, and a repeated occurrence of the first marker
reuses ordinal 1 instead of being renumbered. -/
theorem formatCitations_first_seen_ordinals :
    (∀ t : List Nat, (formatCitations t).2.map Prod.fst =
        List.range' 1 (formatCitations t).2.length) ∧
      formatCitations (codes "The rule requires X〔4:0†doc.md〕") =
        (codes "The rule requires X[1]", [(1, codes "doc")]) ∧
      formatCitations (codes "A〔1:0†a.md〕B〔2:0†b.md〕") =
        (codes "A[1]B[2]", [(1, codes "a"), (2, codes "b")]) ∧
      formatCitations (codes "A〔1:0†a.md〕B〔1:0†a.md〕") =
        (codes "A[1]B[1]", [(1, codes "a")]) := by
  refine ⟨?_, rfl, rfl, rfl⟩
  intro t
  exact citeScan_ordinals (t.length + 1) [] [] t rfl rfl

end FoundryAccel
